import Mathlib

/-!
Verification of the ORB (opening-range-breakout) backtest engine in
`orb_system.py` against its natural-language specification.

Shallow embedding conventions:
* Python floats are modelled as exact rationals (`ℚ`); `round(x, n)` is
  modelled as exact round-half-to-even on rationals (`roundQ`), and
  `float("inf")` (which only arises as a profit-factor value) is modelled
  by `none` in an `Option ℚ`.
* Python strings are `String`; Python's lexicographic `<`/`<=` on strings
  is modelled by an explicit character-list comparison (`strLt`/`strLe`),
  and slices `s[i:j]` by `strTake`/`strSlice`.
* Python's stable `sorted` is modelled by a stable insertion sort
  (`sortStable`): a stable sort is uniquely determined by the (total,
  transitive) comparison, so any stable sort is a faithful model.
* The Sharpe-ratio field of the statistics dict multiplies by `sqrt(252)`,
  an irrational number; it is the one field omitted from the embedded
  `Stats` record (no claim refers to it, and every other field is exact
  rational arithmetic).
-/

namespace Orb

/-- Lexicographic `<` on character lists (Python string comparison). -/
def charsLt : List Char → List Char → Bool
  | [], [] => false
  | [], _ :: _ => true
  | _ :: _, [] => false
  | a :: as, b :: bs => if a < b then true else if b < a then false else charsLt as bs

/-- Lexicographic `<=` on character lists (Python string comparison). -/
def charsLe : List Char → List Char → Bool
  | [], _ => true
  | _ :: _, [] => false
  | a :: as, b :: bs => if a < b then true else if b < a then false else charsLe as bs

/-- Python `a < b` on strings. -/
def strLt (a b : String) : Bool := charsLt a.data b.data

/-- Python `a <= b` on strings. -/
def strLe (a b : String) : Bool := charsLe a.data b.data

/-- Python slice `s[:n]`. -/
def strTake (s : String) (n : ℕ) : String := ⟨s.data.take n⟩

/-- Python slice `s[i:j]`. -/
def strSlice (s : String) (i j : ℕ) : String := ⟨(s.data.drop i).take (j - i)⟩

/-- Python slice `l[-n:]` (the last `n` elements). -/
def lastN (n : ℕ) (l : List α) : List α := l.drop (l.length - n)

/-- Insert `x` after every already-placed element `y` with `le y x`; the
building block of `sortStable`.  Equal keys therefore keep their original
relative order. -/
def insertAfterLe (le : α → α → Bool) (x : α) : List α → List α
  | [] => [x]
  | y :: ys => if le y x then y :: insertAfterLe le x ys else x :: y :: ys

/-- Stable sort, modelling Python's (stable) `sorted`/`list.sort`.  For a
total transitive boolean comparison the stable sorted list is unique, so
this insertion sort computes the same function as CPython's Timsort. -/
def sortStable (le : α → α → Bool) (l : List α) : List α :=
  l.foldl (fun acc x => insertAfterLe le x acc) []

/-- `statistics.mean` (callers guarantee nonempty input). -/
def meanQ (l : List ℚ) : ℚ := l.sum / (l.length : ℚ)

/-- Python `max` over a list (callers guarantee nonempty input). -/
def maxQ : List ℚ → ℚ
  | [] => 0
  | x :: xs => xs.foldl max x

/-- Python `min` over a list (callers guarantee nonempty input). -/
def minQ : List ℚ → ℚ
  | [] => 0
  | x :: xs => xs.foldl min x

/-- Round to the nearest integer, ties to even — Python's `round` on exact
values. -/
def roundHalfEven (q : ℚ) : ℤ :=
  if q - ⌊q⌋ < 1/2 then ⌊q⌋
  else if (1 : ℚ)/2 < q - ⌊q⌋ then ⌊q⌋ + 1
  else if 2 ∣ ⌊q⌋ then ⌊q⌋ else ⌊q⌋ + 1

/-- Python `round(q, n)` on exact values. -/
def roundQ (n : ℕ) (q : ℚ) : ℚ := (roundHalfEven (q * 10 ^ n) : ℚ) / 10 ^ n

/-- One OHLCV bar as fetched from the data provider: timestamp string
(`"2024-01-02T09:30:00Z"`), open, high, low, close, volume. -/
structure Bar where
  t : String
  o : ℚ
  h : ℚ
  l : ℚ
  c : ℚ
  v : ℚ
deriving DecidableEq

/-- Trade direction (the Python code uses the strings "LONG"/"SHORT"). -/
inductive Direction
  | LONG
  | SHORT
deriving DecidableEq

/-- Trade outcome (the Python code uses the strings "WIN"/"LOSS"). -/
inductive Outcome
  | WIN
  | LOSS
deriving DecidableEq

/-- A completed trade record, as produced by `_trade_record`. -/
structure Trade where
  symbol : String
  date : String
  direction : Direction
  entry : ℚ
  stop : ℚ
  target : ℚ
  r_mult : ℚ
  size : ℚ
  atr : Option ℚ
  outcome : Outcome
deriving DecidableEq

/-! ### Configuration constants (module-level constants of `orb_system.py`) -/

def INSAMPLE_RATIO : ℚ := 7/10

def ORB_BARS : ℕ := 6

def RISK_MULTIPLIER : ℚ := 2

def RISK_PERCENT : ℚ := 1/100

def ACCOUNT_SIZE : ℚ := 30000

def VOL_CONFIRM_MULT : ℚ := 3/2

def GAP_FILTER_PCT : ℚ := 3/200

def LATE_ENTRY_CUTOFF : String := "11:30"

def MAX_DAILY_LOSS_R : ℚ := -3

def CORRELATION_PAIRS : List (String × String) := [("SPY", "QQQ")]

/-! ### Filters -/

/-- `gap_filter(day_bars, prev_close)`: allow the day iff a previous close
exists (and is nonzero — Python falsiness) and the opening gap is within
the threshold. -/
def gap_filter (day_bars : List Bar) (prev_close : Option ℚ) : Bool :=
  match prev_close, day_bars with
  | some pc, b :: _ => if pc = 0 then false else decide (|b.o - pc| / pc ≤ GAP_FILTER_PCT)
  | _, _ => false

/-- `volume_confirmation(breakout_bar, recent_bars)`: true automatically
with fewer than 3 recent bars, else the breakout bar's volume must be at
least `VOL_CONFIRM_MULT` times the mean of the last 5 recent volumes. -/
def volume_confirmation (breakout_bar : Bar) (recent_bars : List Bar) : Bool :=
  if recent_bars.length < 3 then true
  else
    let avg_vol := meanQ ((lastN 5 recent_bars).map (·.v))
    decide (avg_vol * VOL_CONFIRM_MULT ≤ breakout_bar.v)

/-- `bar_time_et`: the `HH:MM` slice `timestamp[11:16]`. -/
def bar_time_et (bar_timestamp : String) : String := strSlice bar_timestamp 11 16

/-- `late_entry_filter(bar)`: the bar's time of day is at or before the
cutoff. -/
def late_entry_filter (bar : Bar) : Bool := strLe (bar_time_et bar.t) LATE_ENTRY_CUTOFF

/-! ### ATR-based position sizing -/

/-- The list of daily true ranges (one per consecutive pair of daily bars). -/
def true_ranges (daily_bars : List Bar) : List ℚ :=
  (daily_bars.zip daily_bars.tail).map fun pb =>
    max (pb.2.h - pb.2.l) (max |pb.2.h - pb.1.c| |pb.2.l - pb.1.c|)

/-- `calculate_atr(daily_bars, period)`: `None` with fewer than `period + 1`
daily bars, else the mean of the last `period` true ranges. -/
def calculate_atr (daily_bars : List Bar) (period : ℕ) : Option ℚ :=
  if daily_bars.length < period + 1 then none
  else some (meanQ (lastN period (true_ranges daily_bars)))

/-- `position_size_atr(account_size, risk_percent, atr)`: 0 when ATR is
unavailable or nonpositive, else `(account_size * risk_percent) / atr`
rounded to 2 decimals. -/
def position_size_atr (account_size risk_percent : ℚ) (atr : Option ℚ) : ℚ :=
  match atr with
  | none => 0
  | some a => if a ≤ 0 then 0 else roundQ 2 (account_size * risk_percent / a)

/-! ### Grouping bars by trading date (`group_by_date`) -/

/-- The date key of a bar: `timestamp[:10]`. -/
def dateOf (b : Bar) : String := strTake b.t 10

/-- Distinct keys in first-insertion order (Python dict key order). -/
def dedupKeys : List String → List String
  | [] => []
  | d :: ds => d :: (dedupKeys ds).filter (fun x => x ≠ d)

/-- The bars of one trading day, sorted by timestamp — one entry of the
`group_by_date` mapping. -/
def day_bars_for (bars : List Bar) (d : String) : List Bar :=
  sortStable (fun a b => strLe a.t b.t) (bars.filter (fun b => dateOf b = d))

/-- `sorted(grouped.keys())`. -/
def sorted_dates (bars : List Bar) : List String :=
  sortStable strLe (dedupKeys (bars.map dateOf))

/-- Lookup into the `daily_closes` dict (built by iterating the daily bars,
so the last bar with a given date wins). -/
def daily_close (all_bars_daily : List Bar) (d : String) : Option ℚ :=
  ((all_bars_daily.filter (fun b => dateOf b = d)).getLast?).map (·.c)

/-! ### Core per-day trade simulation (`backtest_symbol`) -/

/-- The simulator's mutable per-day state: `position`, `entry`, `stop`,
`target` (Python initialises `entry = stop = target = 0`). -/
structure PosState where
  position : Option Direction
  entry : ℚ
  stop : ℚ
  target : ℚ
deriving DecidableEq

/-- `_trade_record(...)` of `orb_system.py` (the leading underscore is
dropped for Lean).  Note `outcome` is computed from the un-rounded
`r_mult`, and a falsy (absent or zero) ATR is recorded as `None`. -/
def trade_record (symbol date_str : String) (direction : Direction)
    (entry stop target r_mult size : ℚ) (atr : Option ℚ) : Trade :=
  { symbol := symbol
    date := date_str
    direction := direction
    entry := roundQ 2 entry
    stop := roundQ 2 stop
    target := roundQ 2 target
    r_mult := roundQ 2 r_mult
    size := size
    atr := match atr with
           | some a => if a = 0 then none else some (roundQ 4 a)
           | none => none
    outcome := if 0 < r_mult then Outcome.WIN else Outcome.LOSS }

/-- The entry `if/elif` chain of the bar loop.  The long-breakout branch is
taken (consuming the bar) whenever flat and `bar.h > orb_high`, even if its
volume confirmation then fails; the short branch is only examined
otherwise.  `before` holds the day's bars before the current one, so
`lastN 5 before` is the slice `day_bars[max(0, i-5):i]`. -/
def entry_step (orb_high orb_low range_size : ℚ) (st : PosState) (bar : Bar)
    (before : List Bar) : PosState :=
  if st.position = none ∧ orb_high < bar.h then
    if volume_confirmation bar (lastN 5 before) then
      ⟨some Direction.LONG, orb_high, orb_low, orb_high + range_size * RISK_MULTIPLIER⟩
    else st
  else if st.position = none ∧ bar.l < orb_low then
    if volume_confirmation bar (lastN 5 before) then
      ⟨some Direction.SHORT, orb_low, orb_high, orb_low - range_size * RISK_MULTIPLIER⟩
    else st
  else st

/-- The bar loop `for i in range(ORB_BARS, len(day_bars))` of
`backtest_symbol`.  Every branch that records a trade immediately `break`s,
so the loop returns at most one trade; `daily_r` is the value of
`daily_r[date_str]` (its `+= r_mult` update happens right before a `break`,
so it is never re-read within the day). -/
def scanDay (symbol date_str : String) (size : ℚ) (atr : Option ℚ)
    (orb_high orb_low range_size daily_r : ℚ) :
    PosState → List Bar → List Bar → Option Trade
  | _, _, [] => none
  | st, before, bar :: rest =>
    if daily_r ≤ MAX_DAILY_LOSS_R then none
    else if st.position = none ∧ late_entry_filter bar = false then none
    else
      let st1 := entry_step orb_high orb_low range_size st bar before
      if st1.position = some Direction.LONG ∧ bar.l ≤ st1.stop then
        some (trade_record symbol date_str Direction.LONG st1.entry st1.stop st1.target
          (-1) size atr)
      else if st1.position = some Direction.LONG ∧ st1.target ≤ bar.h then
        some (trade_record symbol date_str Direction.LONG st1.entry st1.stop st1.target
          RISK_MULTIPLIER size atr)
      else if st1.position = some Direction.SHORT ∧ st1.stop ≤ bar.h then
        some (trade_record symbol date_str Direction.SHORT st1.entry st1.stop st1.target
          (-1) size atr)
      else if st1.position = some Direction.SHORT ∧ bar.l ≤ st1.target then
        some (trade_record symbol date_str Direction.SHORT st1.entry st1.stop st1.target
          RISK_MULTIPLIER size atr)
      else scanDay symbol date_str size atr orb_high orb_low range_size daily_r st1
        (before ++ [bar]) rest

/-- Append the day's trade, if any, to the accumulated list (the
`trades.append(...)` effect of a completed day). -/
def appendOpt (acc : List Trade) (res : Option Trade) : List Trade :=
  match res with
  | some tr => acc ++ [tr]
  | none => acc

/-- One iteration of the `for date_str in dates` loop of `backtest_symbol`:
threads `prev_close` and the accumulated trade list. -/
def dayStep (symbol : String) (all_bars_5min all_bars_daily : List Bar)
    (st : Option ℚ × List Trade) (date_str : String) : Option ℚ × List Trade :=
  let day_bars := day_bars_for all_bars_5min date_str
  let next_prev := match daily_close all_bars_daily date_str with
                   | some c => some c
                   | none => st.1
  if day_bars.length < ORB_BARS + 2 then (next_prev, st.2)
  else if gap_filter day_bars st.1 = false then (next_prev, st.2)
  else
    let daily_list := sortStable (fun a b => strLe a.t b.t) all_bars_daily
    let past_daily := daily_list.filter (fun b => strLt (strTake b.t 10) date_str)
    let atr := if 15 ≤ past_daily.length then calculate_atr past_daily 14 else none
    let size := match atr with
                | some a => if a = 0 then 100 else
                    position_size_atr ACCOUNT_SIZE RISK_PERCENT (some a)
                | none => 100
    let orb := day_bars.take ORB_BARS
    let orb_high := maxQ (orb.map (·.h))
    let orb_low := minQ (orb.map (·.l))
    let range_size := orb_high - orb_low
    if range_size ≤ 0 then (next_prev, st.2)
    else
      (next_prev, appendOpt st.2 (scanDay symbol date_str size atr orb_high orb_low
        range_size 0 ⟨none, 0, 0, 0⟩ orb (day_bars.drop ORB_BARS)))

/-- `backtest_symbol(symbol, all_bars_5min, all_bars_daily)`. -/
def backtest_symbol (symbol : String) (all_bars_5min all_bars_daily : List Bar) :
    List Trade :=
  ((sorted_dates all_bars_5min).foldl (dayStep symbol all_bars_5min all_bars_daily)
    (none, [])).2

/-! ### Statistics engine (`compute_stats`) -/

/-- The statistics record returned by `compute_stats` for a nonempty trade
list.  The Sharpe-ratio entry of the Python dict is omitted: it multiplies
by the irrational `sqrt(252)` and no claim refers to it; all other entries
are exact rational arithmetic. -/
structure Stats where
  label : String
  trades : ℕ
  win_rate : ℚ
  avg_r : ℚ
  total_r : ℚ
  max_drawdown : ℚ
  profit_factor : Option ℚ
  avg_win : ℚ
  avg_loss : ℚ
  max_consec_loss : ℕ
  equity_curve : List ℚ
deriving DecidableEq

/-- The running-sum loop building `equity` (`running += r; equity.append`). -/
def equity_curve_of (running : ℚ) : List ℚ → List ℚ
  | [] => []
  | r :: rs => (running + r) :: equity_curve_of (running + r) rs

/-- One iteration of the drawdown loop: state is `(peak, max_dd)`, both
initialised to 0. -/
def dd_step (pm : ℚ × ℚ) (e : ℚ) : ℚ × ℚ :=
  let peak := if pm.1 < e then e else pm.1
  let dd := e - peak
  (peak, if dd < pm.2 then dd else pm.2)

/-- One iteration of the max-consecutive-losses loop: state is
`(max_consec, cur_consec)`. -/
def consec_step (mc : ℕ × ℕ) (r : ℚ) : ℕ × ℕ :=
  if r < 0 then (max mc.1 (mc.2 + 1), mc.2 + 1) else (mc.1, 0)

/-- `compute_stats(trades, label)`: `none` models the early
`return {}` for an empty trade list ("No trades in ... sample"), reached
before any division; the `profit_factor` field's `none` models
`float("inf")`. -/
def compute_stats (trades : List Trade) (label : String) : Option Stats :=
  if trades = [] then none
  else
    let rs := trades.map (·.r_mult)
    let wins := rs.filter (fun r => 0 < r)
    let losses := rs.filter (fun r => r ≤ 0)
    let win_rate := (wins.length : ℚ) / (rs.length : ℚ)
    let equity := equity_curve_of 0 rs
    let max_dd := (equity.foldl dd_step (0, 0)).2
    let avg_win := if wins = [] then 0 else meanQ wins
    let avg_loss := if losses = [] then 0 else meanQ losses
    let gross_win := wins.sum
    let gross_loss := if losses = [] then 1 else |losses.sum|
    let profit_factor := if gross_loss = 0 then none else some (gross_win / gross_loss)
    let max_consec := (rs.foldl consec_step (0, 0)).1
    some
      { label := label
        trades := rs.length
        win_rate := roundQ 1 (win_rate * 100)
        avg_r := roundQ 3 (meanQ rs)
        total_r := roundQ 2 rs.sum
        max_drawdown := roundQ 2 max_dd
        profit_factor := profit_factor.map (roundQ 2)
        avg_win := roundQ 3 avg_win
        avg_loss := roundQ 3 avg_loss
        max_consec_loss := max_consec
        equity_curve := equity }

/-! ### Correlation filter (`apply_correlation_filter`) -/

/-- Append a trade to its date's group (Python `by_date[t["date"]].append(t)`;
dict keys keep first-insertion order). -/
def insertByDate (acc : List (String × List Trade)) (t : Trade) :
    List (String × List Trade) :=
  match acc with
  | [] => [(t.date, [t])]
  | (d, ts) :: rest =>
    if d = t.date then (d, ts ++ [t]) :: rest
    else (d, ts) :: insertByDate rest t

/-- The `by_date` grouping of `apply_correlation_filter`. -/
def trades_by_date (all_trades : List Trade) : List (String × List Trade) :=
  all_trades.foldl insertByDate []

/-- The `skip` set built for one date: for each correlated pair with both
symbols present, drop the second-listed symbol when the first's absolute
R-multiple is at least as large, else drop the first. -/
def skip_for_day (day : String) (day_trades : List Trade) : List (String × String) :=
  CORRELATION_PAIRS.foldl
    (fun skip p =>
      match day_trades.find? (fun t => t.symbol = p.1),
            day_trades.find? (fun t => t.symbol = p.2) with
      | some t1, some t2 =>
        (day, if |t2.r_mult| ≤ |t1.r_mult| then p.2 else p.1) :: skip
      | _, _ => skip)
    []

/-- `apply_correlation_filter(all_trades)`. -/
def apply_correlation_filter (all_trades : List Trade) : List Trade :=
  (trades_by_date all_trades).foldl
    (fun filtered g =>
      filtered ++ g.2.filter (fun t => decide ((t.date, t.symbol) ∉ skip_for_day g.1 g.2)))
    []

/-! ### Walk-forward split (`walk_forward_split`) -/

/-- `walk_forward_split(trades)`: stable sort by date, split at
`int(n * INSAMPLE_RATIO)` (equal to the floor, as the factor is
nonnegative). -/
def walk_forward_split (trades : List Trade) : List Trade × List Trade :=
  if trades = [] then ([], [])
  else
    let sorted_trades := sortStable (fun a b => strLe a.date b.date) trades
    let split := (⌊(sorted_trades.length : ℚ) * INSAMPLE_RATIO⌋).toNat
    (sorted_trades.take split, sorted_trades.drop split)


/-! ### Comparison definitions for the claims -/

/-- `min` over `i` of `equity[i] - max(seed, runningMax(equity[0..i]))`:
the running-peak/drawdown recursion with the peak seeded at `seed` (0 for
an extra trailing term, which is harmless as every genuine term is `≤ 0`). -/
def runningDrawdownMin (seed : ℚ) : List ℚ → ℚ
  | [] => 0
  | e :: es => min (e - max seed e) (runningDrawdownMin (max seed e) es)

/-- Modelled from the spec:
`maxDrawdown = min_i (equityCurve[i] - runningMax(equityCurve[0..i]))`,
with the running maximum taken over the equity curve itself (so seeded at
its first element, not at the initial equity 0). -/
def specMaxDrawdown : List ℚ → ℚ
  | [] => 0
  | e :: es => runningDrawdownMin e (e :: es)

/-- The drop rule of the correlation filter, stated per trade: `t` is
dropped exactly when some declared pair fired on `t`'s date and `t` loses
the comparison — as second-listed member with `|r|` at most the first's,
or as first-listed member with `|r|` strictly below the second's. -/
def droppedByPair (all_trades : List Trade) (t : Trade) : Prop :=
  ∃ p ∈ CORRELATION_PAIRS, ∃ t2 ∈ all_trades, t2.date = t.date ∧
    ((t.symbol = p.2 ∧ t2.symbol = p.1 ∧ |t.r_mult| ≤ |t2.r_mult|) ∨
     (t.symbol = p.1 ∧ t2.symbol = p.2 ∧ |t.r_mult| < |t2.r_mult|))

instance droppedByPair_decidable (all_trades : List Trade) (t : Trade) :
    Decidable (droppedByPair all_trades t) := by
  unfold droppedByPair
  infer_instance

/-- Closed form of the `by_date` grouping: keys in first-occurrence order,
each key paired with the (order-preserving) sublist of its date's trades. -/
def groupsOf (m : List Trade) : List (String × List Trade) :=
  (dedupKeys (m.map fun t => t.date)).map
    (fun d => (d, m.filter (fun t => t.date = d)))

/-! ### Circuit-breaker-free variants (comparison definitions for C9)

`scanDayNB`/`dayStepNB`/`backtest_symbolNB` are verbatim copies of
`scanDay`/`dayStep`/`backtest_symbol` with the daily-loss check
`if daily_r[date_str] <= MAX_DAILY_LOSS_R: break` deleted (and the then
unused `daily_r` parameter dropped). -/

/-- `scanDay` with the daily-loss circuit-breaker check removed. -/
def scanDayNB (symbol date_str : String) (size : ℚ) (atr : Option ℚ)
    (orb_high orb_low range_size : ℚ) :
    PosState → List Bar → List Bar → Option Trade
  | _, _, [] => none
  | st, before, bar :: rest =>
    if st.position = none ∧ late_entry_filter bar = false then none
    else
      let st1 := entry_step orb_high orb_low range_size st bar before
      if st1.position = some Direction.LONG ∧ bar.l ≤ st1.stop then
        some (trade_record symbol date_str Direction.LONG st1.entry st1.stop st1.target
          (-1) size atr)
      else if st1.position = some Direction.LONG ∧ st1.target ≤ bar.h then
        some (trade_record symbol date_str Direction.LONG st1.entry st1.stop st1.target
          RISK_MULTIPLIER size atr)
      else if st1.position = some Direction.SHORT ∧ st1.stop ≤ bar.h then
        some (trade_record symbol date_str Direction.SHORT st1.entry st1.stop st1.target
          (-1) size atr)
      else if st1.position = some Direction.SHORT ∧ bar.l ≤ st1.target then
        some (trade_record symbol date_str Direction.SHORT st1.entry st1.stop st1.target
          RISK_MULTIPLIER size atr)
      else scanDayNB symbol date_str size atr orb_high orb_low range_size st1
        (before ++ [bar]) rest

/-- `dayStep` with the circuit-breaker-free scanner. -/
def dayStepNB (symbol : String) (all_bars_5min all_bars_daily : List Bar)
    (st : Option ℚ × List Trade) (date_str : String) : Option ℚ × List Trade :=
  let day_bars := day_bars_for all_bars_5min date_str
  let next_prev := match daily_close all_bars_daily date_str with
                   | some c => some c
                   | none => st.1
  if day_bars.length < ORB_BARS + 2 then (next_prev, st.2)
  else if gap_filter day_bars st.1 = false then (next_prev, st.2)
  else
    let daily_list := sortStable (fun a b => strLe a.t b.t) all_bars_daily
    let past_daily := daily_list.filter (fun b => strLt (strTake b.t 10) date_str)
    let atr := if 15 ≤ past_daily.length then calculate_atr past_daily 14 else none
    let size := match atr with
                | some a => if a = 0 then 100 else
                    position_size_atr ACCOUNT_SIZE RISK_PERCENT (some a)
                | none => 100
    let orb := day_bars.take ORB_BARS
    let orb_high := maxQ (orb.map (·.h))
    let orb_low := minQ (orb.map (·.l))
    let range_size := orb_high - orb_low
    if range_size ≤ 0 then (next_prev, st.2)
    else
      (next_prev, appendOpt st.2 (scanDayNB symbol date_str size atr orb_high orb_low
        range_size ⟨none, 0, 0, 0⟩ orb (day_bars.drop ORB_BARS)))

/-- `backtest_symbol` with the circuit-breaker-free scanner. -/
def backtest_symbolNB (symbol : String) (all_bars_5min all_bars_daily : List Bar) :
    List Trade :=
  ((sorted_dates all_bars_5min).foldl (dayStepNB symbol all_bars_5min all_bars_daily)
    (none, [])).2

/-! ### Concrete data used by counterexamples and witnesses -/

/-- A concrete losing trade (for evaluating the statistics engine). -/
def wTradeLoss : Trade :=
  ⟨"SPY", "2024-01-03", Direction.LONG, 101, 99, 105, -1, 100, none, Outcome.LOSS⟩

/-- A concrete winning trade (for evaluating the statistics engine). -/
def wTradeWin : Trade :=
  ⟨"QQQ", "2024-01-04", Direction.LONG, 101, 99, 105, 2, 100, none, Outcome.WIN⟩

/-- A concrete SPY trade, same date as `wTradeQQQ` (correlation filter). -/
def wTradeSPY : Trade :=
  ⟨"SPY", "2024-01-05", Direction.LONG, 101, 99, 105, 2, 100, none, Outcome.WIN⟩

/-- A concrete QQQ trade, same date as `wTradeSPY` (correlation filter). -/
def wTradeQQQ : Trade :=
  ⟨"QQQ", "2024-01-05", Direction.SHORT, 99, 101, 95, -1, 100, none, Outcome.LOSS⟩

/-- A concrete 5-minute bar series: one stray bar on 2024-01-02 (so the
daily close of 2024-01-02 becomes `prev_close`), then a full 2024-01-03
session whose ORB is [99, 101], a confirmed upside breakout at 10:00 and a
run to the 105 target at 10:05. -/
def wBars5 : List Bar :=
  [⟨"2024-01-02T09:30:00Z", 100, 100, 100, 100, 1000⟩,
   ⟨"2024-01-03T09:30:00Z", 100, 101, 99, 100, 1000⟩,
   ⟨"2024-01-03T09:35:00Z", 100, 101, 99, 100, 1000⟩,
   ⟨"2024-01-03T09:40:00Z", 100, 101, 99, 100, 1000⟩,
   ⟨"2024-01-03T09:45:00Z", 100, 101, 99, 100, 1000⟩,
   ⟨"2024-01-03T09:50:00Z", 100, 101, 99, 100, 1000⟩,
   ⟨"2024-01-03T09:55:00Z", 100, 101, 99, 100, 1000⟩,
   ⟨"2024-01-03T10:00:00Z", 101, 102, 100, 101, 2000⟩,
   ⟨"2024-01-03T10:05:00Z", 104, 106, 103, 105, 2500⟩]

/-- The matching daily bars: a single 2024-01-02 close of 100. -/
def wBarsDaily : List Bar := [⟨"2024-01-02T00:00:00Z", 100, 100, 100, 100, 50000⟩]

/-- The trade `backtest_symbol "TEST" wBars5 wBarsDaily` produces. -/
def wTradeOut : Trade :=
  ⟨"TEST", "2024-01-03", Direction.LONG, 101, 99, 105, 2, 100, none, Outcome.WIN⟩

/-- Six opening-range bars (used as the `before` window of a scan). -/
def wOrbBars : List Bar :=
  [⟨"2024-01-03T09:30:00Z", 100, 101, 99, 100, 1000⟩,
   ⟨"2024-01-03T09:35:00Z", 100, 101, 99, 100, 1000⟩,
   ⟨"2024-01-03T09:40:00Z", 100, 101, 99, 100, 1000⟩,
   ⟨"2024-01-03T09:45:00Z", 100, 101, 99, 100, 1000⟩,
   ⟨"2024-01-03T09:50:00Z", 100, 101, 99, 100, 1000⟩,
   ⟨"2024-01-03T09:55:00Z", 100, 101, 99, 100, 1000⟩]

/-- A confirmed-volume bar whose high pierces ORB high 101 and whose low
pierces ORB low 99 on the same bar. -/
def wBreakBar : Bar := ⟨"2024-01-03T10:00:00Z", 100, 102, 98, 99, 2000⟩

/-! ## Helper lemmas -/

theorem ite_lt_max (p e : ℚ) : (if p < e then e else p) = max p e := by
  rcases lt_or_le p e with h | h
  · rw [if_pos h, max_eq_right h.le]
  · rw [if_neg (not_lt.mpr h), max_eq_left h]

theorem ite_lt_min (a b : ℚ) : (if a < b then a else b) = min b a := by
  rcases lt_or_le a b with h | h
  · rw [if_pos h, min_eq_right h.le]
  · rw [if_neg (not_lt.mpr h), min_eq_left h]

theorem dd_step_eq (p m e : ℚ) : dd_step (p, m) e = (max p e, min m (e - max p e)) := by
  unfold dd_step
  dsimp only
  rw [ite_lt_max, ite_lt_min]

theorem rdm_nonpos : ∀ (l : List ℚ) (seed : ℚ), runningDrawdownMin seed l ≤ 0
  | [], _ => le_refl 0
  | e :: es, seed => by
    rw [runningDrawdownMin]
    exact le_trans (min_le_left _ _) (sub_nonpos.mpr (le_max_right _ _))

theorem dd_foldl : ∀ (l : List ℚ) (p m : ℚ), m ≤ 0 →
    (l.foldl dd_step (p, m)).2 = min m (runningDrawdownMin p l)
  | [], p, m, hm => by
    rw [runningDrawdownMin, List.foldl_nil, min_eq_left hm]
  | e :: es, p, m, hm => by
    rw [List.foldl_cons, dd_step_eq,
      dd_foldl es (max p e) _ (le_trans (min_le_left _ _) hm),
      runningDrawdownMin, min_assoc]

theorem rdm_zero_iff : ∀ (rs : List ℚ) (c : ℚ),
    runningDrawdownMin c (equity_curve_of c rs) = 0 ↔ ∀ r ∈ rs, 0 ≤ r
  | [], c => by simp [equity_curve_of, runningDrawdownMin]
  | r :: rs, c => by
    rw [equity_curve_of, runningDrawdownMin]
    rcases le_or_lt 0 r with h0 | h0
    · rw [max_eq_right (by linarith : c ≤ c + r), sub_self]
      have hnp := rdm_nonpos (equity_curve_of (c + r) rs) (c + r)
      constructor
      · intro h
        have hz : runningDrawdownMin (c + r) (equity_curve_of (c + r) rs) = 0 := by
          rcases lt_or_eq_of_le hnp with hlt | heq
          · rw [min_eq_right hlt.le] at h
            exact absurd h (ne_of_lt hlt)
          · exact heq
        intro x hx
        rcases List.mem_cons.mp hx with rfl | hx2
        · exact h0
        · exact ((rdm_zero_iff rs (c + r)).mp hz) x hx2
      · intro h
        rw [(rdm_zero_iff rs (c + r)).mpr (fun x hx => h x (List.mem_cons_of_mem _ hx))]
        simp
    · rw [max_eq_left (by linarith : c + r ≤ c)]
      constructor
      · intro h
        exfalso
        have h1 : min (c + r - c) (runningDrawdownMin c (equity_curve_of (c + r) rs)) ≤
            c + r - c := min_le_left _ _
        rw [h] at h1
        have h2 : c + r - c = r := by ring
        rw [h2] at h1
        linarith
      · intro h
        exact absurd (h r (List.mem_cons_self _ _)) (not_le.mpr h0)

theorem roundHalfEven_nonpos {q : ℚ} (h : q ≤ 0) : roundHalfEven q ≤ 0 := by
  unfold roundHalfEven
  have hf : ⌊q⌋ ≤ 0 := by
    have := Int.floor_le_floor h
    rwa [Int.floor_zero] at this
  have key : ¬ (q - ⌊q⌋ < 1/2) → ⌊q⌋ + 1 ≤ 0 := by
    intro h1
    have h2 : (1 : ℚ)/2 ≤ q - ⌊q⌋ := not_lt.mp h1
    have h3 : (⌊q⌋ : ℚ) < q := by linarith
    have h4 : (⌊q⌋ : ℚ) < 0 := lt_of_lt_of_le h3 h
    have h5 : ⌊q⌋ < 0 := by exact_mod_cast h4
    omega
  split_ifs with h1 h2 h3
  · exact hf
  · exact key h1
  · exact hf
  · exact key h1

theorem roundQ_nonpos {q : ℚ} (n : ℕ) (h : q ≤ 0) : roundQ n q ≤ 0 := by
  unfold roundQ
  have h1 : q * 10 ^ n ≤ 0 :=
    mul_nonpos_iff.mpr (Or.inr ⟨h, by positivity⟩)
  have h2 : ((roundHalfEven (q * 10 ^ n) : ℤ) : ℚ) ≤ 0 := by
    exact_mod_cast roundHalfEven_nonpos h1
  exact div_nonpos_iff.mpr (Or.inr ⟨h2, by positivity⟩)

theorem sum_filter_nonpos_eq (l : List ℚ) :
    (l.filter fun r => r ≤ 0).sum = (l.filter fun r => r < 0).sum := by
  induction l with
  | nil => rfl
  | cons x xs ih =>
    by_cases h1 : x < 0
    · simp [List.filter_cons, h1, h1.le, ih]
    · by_cases h2 : x ≤ 0
      · have hx : x = 0 := le_antisymm h2 (not_lt.mp h1)
        simp [List.filter_cons, h1, h2, hx, ih]
      · simp [List.filter_cons, h1, h2, ih]

/-! ## C8 -/

/-- C8: `compute_stats` applied to an empty trade list returns the explicit
no-trades marker (`none`, modelling the "No trades" early `return {}`), and
only then; this early return precedes every division in the function, so no
division is performed on the empty list. -/
theorem C8_empty_trade_list (trades : List Trade) (label : String) :
    compute_stats trades label = none ↔ trades = [] := by
  constructor
  · intro h
    by_contra hne
    rw [compute_stats, if_neg hne] at h
    exact Option.some_ne_none _ h
  · intro h
    rw [compute_stats, if_pos h]

/-! ## C1 -/

/-- C1 (amended): for every non-empty trade list, the `maxDrawdown` that
`compute_stats` returns is the 2-decimal rounding of
`D = min_i (equityCurve[i] - max(0, runningMax(equityCurve[0..i])))` — the
running peak is seeded with the initial equity 0, not with
`equityCurve[0]`; `D ≤ 0` always (and so is the rounded field), and `D = 0`
exactly when every rMultiple is ≥ 0, i.e. when the 0-prefixed equity curve
is non-decreasing. -/
theorem C1_max_drawdown (trades : List Trade) (label : String) (h : trades ≠ []) :
    ∃ s, compute_stats trades label = some s ∧
      s.equity_curve = equity_curve_of 0 (trades.map fun t => t.r_mult) ∧
      s.max_drawdown = roundQ 2 (runningDrawdownMin 0 s.equity_curve) ∧
      runningDrawdownMin 0 s.equity_curve ≤ 0 ∧
      s.max_drawdown ≤ 0 ∧
      (runningDrawdownMin 0 s.equity_curve = 0 ↔
        ∀ r ∈ trades.map fun t => t.r_mult, 0 ≤ r) := by
  rw [compute_stats, if_neg h]
  refine ⟨_, rfl, rfl, ?_, ?_, ?_, ?_⟩
  · show roundQ 2 ((equity_curve_of 0 (trades.map fun t => t.r_mult)).foldl
      dd_step (0, 0)).2 = _
    rw [dd_foldl _ 0 0 le_rfl, min_eq_right (rdm_nonpos _ 0)]
  · exact rdm_nonpos _ 0
  · show roundQ 2 ((equity_curve_of 0 (trades.map fun t => t.r_mult)).foldl
      dd_step (0, 0)).2 ≤ 0
    rw [dd_foldl _ 0 0 le_rfl, min_eq_right (rdm_nonpos _ 0)]
    exact roundQ_nonpos 2 (rdm_nonpos _ 0)
  · exact rdm_zero_iff _ 0

/-- C1 counterexample to the claim as stated: on the single-trade list with
rMultiple −1 the code returns maxDrawdown = −1, while the spec's formula
(running max over the equity curve itself) yields 0 — and the equity curve
`[-1]` is non-decreasing yet the returned maxDrawdown is not 0. -/
theorem C1_counterexample :
    (compute_stats [wTradeLoss] "ALL").map Stats.max_drawdown = some (-1) ∧
    (compute_stats [wTradeLoss] "ALL").map (fun s => specMaxDrawdown s.equity_curve) =
      some 0 ∧
    (compute_stats [wTradeLoss] "ALL").map Stats.equity_curve = some [-1] :=
  of_decide_eq_true (by with_unfolding_all rfl)

/-- C1 witness: the amended theorem applied to the concrete two-trade list
`[wTradeLoss, wTradeWin]`. -/
theorem C1_max_drawdown_witness :
    ([wTradeLoss, wTradeWin] ≠ ([] : List Trade)) ∧
    (∃ s, compute_stats [wTradeLoss, wTradeWin] "ALL" = some s ∧
      s.equity_curve = equity_curve_of 0 ([wTradeLoss, wTradeWin].map fun t => t.r_mult) ∧
      s.max_drawdown = roundQ 2 (runningDrawdownMin 0 s.equity_curve) ∧
      runningDrawdownMin 0 s.equity_curve ≤ 0 ∧
      s.max_drawdown ≤ 0 ∧
      (runningDrawdownMin 0 s.equity_curve = 0 ↔
        ∀ r ∈ [wTradeLoss, wTradeWin].map fun t => t.r_mult, 0 ≤ r)) :=
  ⟨by simp, C1_max_drawdown [wTradeLoss, wTradeWin] "ALL" (by simp)⟩

/-! ## C2 -/

/-- C2 (amended): for every non-empty trade list, the profitFactor returned
by `compute_stats` equals the 2-decimal rounding of
`sum(positive r) / |sum(r over trades with r ≤ 0)|` whenever trades with
r ≤ 0 exist and their sum is nonzero (that sum equals the sum of the
strictly negative r, so this is the claimed formula whenever a strict loss
exists); it is infinite (`none`) when trades with r ≤ 0 exist but sum to 0;
and when every trade has r > 0 it is *finite* — the code substitutes the
sentinel denominator 1 and returns `round(sum(positive r), 2)` rather than
infinity. -/
theorem C2_profit_factor (trades : List Trade) (label : String) (h : trades ≠ []) :
    ∃ s, compute_stats trades label = some s ∧
      (((trades.map fun t => t.r_mult).filter fun r => r ≤ 0) ≠ [] →
        ((trades.map fun t => t.r_mult).filter fun r => r ≤ 0).sum ≠ 0 →
        s.profit_factor = some (roundQ 2
          (((trades.map fun t => t.r_mult).filter fun r => 0 < r).sum /
            |((trades.map fun t => t.r_mult).filter fun r => r ≤ 0).sum|))) ∧
      (((trades.map fun t => t.r_mult).filter fun r => r ≤ 0) ≠ [] →
        ((trades.map fun t => t.r_mult).filter fun r => r ≤ 0).sum = 0 →
        s.profit_factor = none) ∧
      (((trades.map fun t => t.r_mult).filter fun r => r ≤ 0) = [] →
        s.profit_factor = some (roundQ 2
          ((trades.map fun t => t.r_mult).filter fun r => 0 < r).sum)) ∧
      ((trades.map fun t => t.r_mult).filter fun r => r ≤ 0).sum =
        ((trades.map fun t => t.r_mult).filter fun r => r < 0).sum := by
  rw [compute_stats, if_neg h]
  refine ⟨_, rfl, ?_, ?_, ?_, sum_filter_nonpos_eq _⟩
  · intro hne hsum
    show (if (if ((trades.map fun t => t.r_mult).filter fun r => r ≤ 0) = [] then 1
        else |((trades.map fun t => t.r_mult).filter fun r => r ≤ 0).sum|) = 0
      then none else some _).map (roundQ 2) = _
    rw [if_neg hne, if_neg (abs_ne_zero.mpr hsum)]
    rfl
  · intro hne hsum
    show (if (if ((trades.map fun t => t.r_mult).filter fun r => r ≤ 0) = [] then 1
        else |((trades.map fun t => t.r_mult).filter fun r => r ≤ 0).sum|) = 0
      then none else some _).map (roundQ 2) = _
    rw [if_neg hne, hsum, abs_zero, if_pos rfl]
    rfl
  · intro he
    show (if (if ((trades.map fun t => t.r_mult).filter fun r => r ≤ 0) = [] then 1
        else |((trades.map fun t => t.r_mult).filter fun r => r ≤ 0).sum|) = 0
      then none else some _).map (roundQ 2) = _
    rw [if_pos he, if_neg one_ne_zero, div_one]
    rfl

/-- C2 counterexample to the claim as stated: the single-trade list with
rMultiple +2 has no losing trade, yet the returned profitFactor is the
finite value 2, not the unbounded/infinite marker. -/
theorem C2_counterexample :
    (compute_stats [wTradeWin] "ALL").map Stats.profit_factor = some (some 2) ∧
    (compute_stats [wTradeWin] "ALL").map Stats.profit_factor ≠ some none ∧
    ([wTradeWin].map fun t => t.r_mult).filter (fun r => r < 0) = [] :=
  of_decide_eq_true (by with_unfolding_all rfl)

/-- C2 witness: the amended theorem applied to the concrete two-trade list
`[wTradeWin, wTradeLoss]`. -/
theorem C2_profit_factor_witness :
    ([wTradeWin, wTradeLoss] ≠ ([] : List Trade)) ∧
    (∃ s, compute_stats [wTradeWin, wTradeLoss] "ALL" = some s ∧
      ((([wTradeWin, wTradeLoss].map fun t => t.r_mult).filter fun r => r ≤ 0) ≠ [] →
        (([wTradeWin, wTradeLoss].map fun t => t.r_mult).filter fun r => r ≤ 0).sum ≠ 0 →
        s.profit_factor = some (roundQ 2
          ((([wTradeWin, wTradeLoss].map fun t => t.r_mult).filter fun r => 0 < r).sum /
            |(([wTradeWin, wTradeLoss].map fun t => t.r_mult).filter fun r => r ≤ 0).sum|))) ∧
      ((([wTradeWin, wTradeLoss].map fun t => t.r_mult).filter fun r => r ≤ 0) ≠ [] →
        (([wTradeWin, wTradeLoss].map fun t => t.r_mult).filter fun r => r ≤ 0).sum = 0 →
        s.profit_factor = none) ∧
      ((([wTradeWin, wTradeLoss].map fun t => t.r_mult).filter fun r => r ≤ 0) = [] →
        s.profit_factor = some (roundQ 2
          (([wTradeWin, wTradeLoss].map fun t => t.r_mult).filter fun r => 0 < r).sum)) ∧
      (([wTradeWin, wTradeLoss].map fun t => t.r_mult).filter fun r => r ≤ 0).sum =
        (([wTradeWin, wTradeLoss].map fun t => t.r_mult).filter fun r => r < 0).sum) :=
  ⟨by simp, C2_profit_factor [wTradeWin, wTradeLoss] "ALL" (by simp)⟩

/-! ## Sorting and grouping helper lemmas -/

theorem insertAfterLe_perm (le : α → α → Bool) (x : α) :
    ∀ l : List α, List.Perm (insertAfterLe le x l) (x :: l)
  | [] => List.Perm.refl _
  | y :: ys => by
    rw [insertAfterLe]
    split_ifs with h
    · exact (List.Perm.cons y (insertAfterLe_perm le x ys)).trans (List.Perm.swap x y ys)
    · exact List.Perm.refl _

theorem foldl_insertAfterLe_perm (le : α → α → Bool) :
    ∀ (l acc : List α),
      List.Perm (l.foldl (fun acc x => insertAfterLe le x acc) acc) (acc ++ l)
  | [], acc => by simp
  | x :: xs, acc => by
    rw [List.foldl_cons]
    refine (foldl_insertAfterLe_perm le xs _).trans ?_
    refine List.Perm.trans ((insertAfterLe_perm le x acc).append_right xs) ?_
    rw [List.cons_append]
    exact List.perm_middle.symm

theorem sortStable_perm (le : α → α → Bool) (l : List α) :
    List.Perm (sortStable le l) l := by
  unfold sortStable
  simpa using foldl_insertAfterLe_perm le l []

theorem dedupKeys_nodup : ∀ l : List String, (dedupKeys l).Nodup
  | [] => List.nodup_nil
  | d :: ds => by
    rw [dedupKeys]
    refine List.Nodup.cons ?_ ((dedupKeys_nodup ds).filter _)
    intro hmem
    have := (List.mem_filter.mp hmem).2
    simp at this

theorem sorted_dates_nodup (bars : List Bar) : (sorted_dates bars).Nodup := by
  unfold sorted_dates
  exact ((sortStable_perm strLe _).nodup_iff).mpr (dedupKeys_nodup _)

/-! ## Trade-record and scan-step helper lemmas -/

theorem roundQ_neg_one : roundQ 2 (-1 : ℚ) = -1 :=
  of_decide_eq_true (by with_unfolding_all rfl)

theorem roundQ_two : roundQ 2 (2 : ℚ) = 2 :=
  of_decide_eq_true (by with_unfolding_all rfl)

theorem trade_record_loss_fields (s d : String) (dir : Direction) (e st tg sz : ℚ)
    (a : Option ℚ) :
    (trade_record s d dir e st tg (-1) sz a).r_mult = -1 ∧
    (trade_record s d dir e st tg (-1) sz a).outcome = Outcome.LOSS := by
  unfold trade_record
  refine ⟨roundQ_neg_one, ?_⟩
  simp only []
  rw [if_neg (by norm_num : ¬ ((0 : ℚ) < -1))]

theorem trade_record_win_fields (s d : String) (dir : Direction) (e st tg sz : ℚ)
    (a : Option ℚ) :
    (trade_record s d dir e st tg RISK_MULTIPLIER sz a).r_mult = RISK_MULTIPLIER ∧
    (trade_record s d dir e st tg RISK_MULTIPLIER sz a).outcome = Outcome.WIN := by
  unfold trade_record
  constructor
  · show roundQ 2 RISK_MULTIPLIER = RISK_MULTIPLIER
    rw [show RISK_MULTIPLIER = (2 : ℚ) from rfl]
    exact roundQ_two
  · simp only []
    rw [if_pos (by norm_num [RISK_MULTIPLIER] : (0 : ℚ) < RISK_MULTIPLIER)]

theorem entry_step_some (orb_high orb_low range_size : ℚ) (dir : Direction)
    (e s tg : ℚ) (bar : Bar) (before : List Bar) :
    entry_step orb_high orb_low range_size ⟨some dir, e, s, tg⟩ bar before =
      ⟨some dir, e, s, tg⟩ := by
  unfold entry_step
  simp

theorem breaker_not_tripped : ¬ ((0 : ℚ) ≤ MAX_DAILY_LOSS_R) := by
  norm_num [MAX_DAILY_LOSS_R]

theorem scanDay_some : ∀ (l : List Bar) (st : PosState) (before : List Bar)
    {symbol date_str : String} {size : ℚ} {atr : Option ℚ}
    {oh ol rs dr : ℚ} {tr : Trade},
    scanDay symbol date_str size atr oh ol rs dr st before l = some tr →
    tr.symbol = symbol ∧ tr.date = date_str ∧
    (tr.r_mult = -1 ∨ tr.r_mult = RISK_MULTIPLIER) ∧
    (tr.outcome = Outcome.WIN ↔ 0 < tr.r_mult)
  | [], st, before, symbol, date_str, size, atr, oh, ol, rs, dr, tr => by
    intro h
    exact absurd h (by simp [scanDay])
  | bar :: rest, st, before, symbol, date_str, size, atr, oh, ol, rs, dr, tr => by
    intro h
    rw [scanDay] at h
    simp only [] at h
    split_ifs at h with h1 h2 h3 h4 h5 h6
    · obtain ⟨hr, hout⟩ := trade_record_loss_fields symbol date_str Direction.LONG _ _ _ size atr
      obtain rfl := Option.some.inj h
      refine ⟨rfl, rfl, Or.inl hr, ?_⟩
      rw [hr, hout]
      constructor
      · intro hw; exact absurd hw (by simp)
      · intro hlt; exact absurd hlt (by norm_num)
    · obtain ⟨hr, hout⟩ := trade_record_win_fields symbol date_str Direction.LONG _ _ _ size atr
      obtain rfl := Option.some.inj h
      refine ⟨rfl, rfl, Or.inr hr, ?_⟩
      rw [hr, hout]
      constructor
      · intro _; norm_num [RISK_MULTIPLIER]
      · intro _; rfl
    · obtain ⟨hr, hout⟩ := trade_record_loss_fields symbol date_str Direction.SHORT _ _ _ size atr
      obtain rfl := Option.some.inj h
      refine ⟨rfl, rfl, Or.inl hr, ?_⟩
      rw [hr, hout]
      constructor
      · intro hw; exact absurd hw (by simp)
      · intro hlt; exact absurd hlt (by norm_num)
    · obtain ⟨hr, hout⟩ := trade_record_win_fields symbol date_str Direction.SHORT _ _ _ size atr
      obtain rfl := Option.some.inj h
      refine ⟨rfl, rfl, Or.inr hr, ?_⟩
      rw [hr, hout]
      constructor
      · intro _; norm_num [RISK_MULTIPLIER]
      · intro _; rfl
    · exact scanDay_some rest _ _ h

theorem appendOpt_cases (acc : List Trade) (res : Option Trade) (P : Trade → Prop)
    (hres : ∀ tr, res = some tr → P tr) :
    appendOpt acc res = acc ∨ ∃ tr, appendOpt acc res = acc ++ [tr] ∧ P tr := by
  cases res with
  | none => exact Or.inl rfl
  | some tr => exact Or.inr ⟨tr, rfl, hres tr rfl⟩

theorem dayStep_snd (symbol : String) (b5 bD : List Bar) (st : Option ℚ × List Trade)
    (d : String) :
    (dayStep symbol b5 bD st d).2 = st.2 ∨
    ∃ tr, (dayStep symbol b5 bD st d).2 = st.2 ++ [tr] ∧ tr.symbol = symbol ∧
      tr.date = d ∧ (tr.r_mult = -1 ∨ tr.r_mult = RISK_MULTIPLIER) ∧
      (tr.outcome = Outcome.WIN ↔ 0 < tr.r_mult) := by
  unfold dayStep
  dsimp only
  split_ifs <;>
    first
      | exact Or.inl rfl
      | exact appendOpt_cases _ _ _ (fun tr htr => scanDay_some _ _ _ htr)

theorem foldl_dayStep_ext (symbol : String) (b5 bD : List Bar) :
    ∀ (ds : List String) (pc : Option ℚ) (acc : List Trade), ds.Nodup →
    ∃ ext, (ds.foldl (dayStep symbol b5 bD) (pc, acc)).2 = acc ++ ext ∧
      (∀ t ∈ ext, t.symbol = symbol ∧ t.date ∈ ds ∧
        (t.r_mult = -1 ∨ t.r_mult = RISK_MULTIPLIER) ∧
        (t.outcome = Outcome.WIN ↔ 0 < t.r_mult)) ∧
      ext.Pairwise (fun a b => a.date ≠ b.date)
  | [], pc, acc, _ => ⟨[], by simp, by simp, List.Pairwise.nil⟩
  | d :: ds, pc, acc, hnd => by
    obtain ⟨hd_mem, hds⟩ := List.nodup_cons.mp hnd
    rw [List.foldl_cons]
    have hpair : dayStep symbol b5 bD (pc, acc) d =
        ((dayStep symbol b5 bD (pc, acc) d).1, (dayStep symbol b5 bD (pc, acc) d).2) := rfl
    rcases dayStep_snd symbol b5 bD (pc, acc) d with heq | ⟨tr, heq, hsym, hdate, hr, hout⟩
    · obtain ⟨ext, h1, h2, h3⟩ := foldl_dayStep_ext symbol b5 bD ds
        (dayStep symbol b5 bD (pc, acc) d).1 (dayStep symbol b5 bD (pc, acc) d).2 hds
      rw [hpair] at *
      refine ⟨ext, by rw [h1, heq], ?_, h3⟩
      intro t ht
      obtain ⟨q1, q2, q3, q4⟩ := h2 t ht
      exact ⟨q1, List.mem_cons_of_mem _ q2, q3, q4⟩
    · obtain ⟨ext, h1, h2, h3⟩ := foldl_dayStep_ext symbol b5 bD ds
        (dayStep symbol b5 bD (pc, acc) d).1 (dayStep symbol b5 bD (pc, acc) d).2 hds
      rw [hpair] at *
      refine ⟨tr :: ext, ?_, ?_, ?_⟩
      · rw [h1, heq, List.append_assoc, List.singleton_append]
      · intro t ht
        rcases List.mem_cons.mp ht with rfl | ht2
        · exact ⟨hsym, hdate ▸ List.mem_cons_self _ _, hr, hout⟩
        · obtain ⟨q1, q2, q3, q4⟩ := h2 t ht2
          exact ⟨q1, List.mem_cons_of_mem _ q2, q3, q4⟩
      · refine List.Pairwise.cons ?_ h3
        intro b hb
        have hbd : b.date ∈ ds := (h2 b hb).2.1
        rw [hdate]
        intro hcontra
        rw [hcontra] at hd_mem
        exact hd_mem hbd

/-! ## C3 -/

/-- C3: every trade produced by `backtest_symbol` has `r_mult` equal to
exactly −1 or `RISK_MULTIPLIER` (= 2), and its outcome field is WIN iff
`r_mult > 0`, LOSS otherwise. -/
theorem C3_r_mult_and_outcome (symbol : String) (b5 bD : List Bar) (t : Trade)
    (ht : t ∈ backtest_symbol symbol b5 bD) :
    (t.r_mult = -1 ∨ t.r_mult = RISK_MULTIPLIER) ∧
    (t.outcome = Outcome.WIN ↔ 0 < t.r_mult) := by
  unfold backtest_symbol at ht
  obtain ⟨ext, h1, h2, _⟩ := foldl_dayStep_ext symbol b5 bD (sorted_dates b5) none []
    (sorted_dates_nodup b5)
  rw [h1, List.nil_append] at ht
  exact ⟨(h2 t ht).2.2.1, (h2 t ht).2.2.2⟩

/-- C3 witness: the concrete run `backtest_symbol "TEST" wBars5 wBarsDaily`
produces the trade `wTradeOut`, to which the theorem applies. -/
theorem C3_r_mult_and_outcome_witness :
    (wTradeOut ∈ backtest_symbol "TEST" wBars5 wBarsDaily) ∧
    ((wTradeOut.r_mult = -1 ∨ wTradeOut.r_mult = RISK_MULTIPLIER) ∧
      (wTradeOut.outcome = Outcome.WIN ↔ 0 < wTradeOut.r_mult)) :=
  ⟨of_decide_eq_true (by with_unfolding_all rfl),
    C3_r_mult_and_outcome "TEST" wBars5 wBarsDaily wTradeOut
      (of_decide_eq_true (by with_unfolding_all rfl))⟩

/-! ## C4 -/

/-- C4: for every input bar series, the trade list returned by
`backtest_symbol` contains at most one trade per (symbol, date) pair. -/
theorem C4_at_most_one_trade_per_day (symbol : String) (b5 bD : List Bar) :
    (backtest_symbol symbol b5 bD).Pairwise
      (fun a b => ¬ (a.symbol = b.symbol ∧ a.date = b.date)) := by
  unfold backtest_symbol
  obtain ⟨ext, h1, _, h3⟩ := foldl_dayStep_ext symbol b5 bD (sorted_dates b5) none []
    (sorted_dates_nodup b5)
  rw [h1, List.nil_append]
  exact h3.imp (fun hne hc => hne hc.2)

/-! ## C5 -/

/-- C5: while a position is open (an open position makes the entry chain a
no-op), each bar is resolved by the exit chain in source order: for LONG
the stop check `bar.l ≤ stop` comes first — a bar touching the stop records
the −1 LOSS even if `bar.h ≥ target` on the same bar — the
`+RISK_MULTIPLIER` WIN fires only when the low does not touch the stop and
`bar.h ≥ target`, and otherwise the scan continues (so at most one exit
fires per bar); the inverted logic holds for SHORT (stop at the ORB high
checked before target). -/
theorem C5_stop_before_target (symbol date_str : String) (size : ℚ) (atr : Option ℚ)
    (oh ol rs e s tg : ℚ) (before rest : List Bar) (bar : Bar) :
    (scanDay symbol date_str size atr oh ol rs 0 ⟨some Direction.LONG, e, s, tg⟩ before
        (bar :: rest) =
      if bar.l ≤ s then
        some (trade_record symbol date_str Direction.LONG e s tg (-1) size atr)
      else if tg ≤ bar.h then
        some (trade_record symbol date_str Direction.LONG e s tg RISK_MULTIPLIER size atr)
      else scanDay symbol date_str size atr oh ol rs 0 ⟨some Direction.LONG, e, s, tg⟩
        (before ++ [bar]) rest) ∧
    (scanDay symbol date_str size atr oh ol rs 0 ⟨some Direction.SHORT, e, s, tg⟩ before
        (bar :: rest) =
      if s ≤ bar.h then
        some (trade_record symbol date_str Direction.SHORT e s tg (-1) size atr)
      else if bar.l ≤ tg then
        some (trade_record symbol date_str Direction.SHORT e s tg RISK_MULTIPLIER size atr)
      else scanDay symbol date_str size atr oh ol rs 0 ⟨some Direction.SHORT, e, s, tg⟩
        (before ++ [bar]) rest) ∧
    (∀ dir : Direction,
      (trade_record symbol date_str dir e s tg (-1) size atr).r_mult = -1 ∧
      (trade_record symbol date_str dir e s tg (-1) size atr).outcome = Outcome.LOSS ∧
      (trade_record symbol date_str dir e s tg RISK_MULTIPLIER size atr).r_mult =
        RISK_MULTIPLIER ∧
      (trade_record symbol date_str dir e s tg RISK_MULTIPLIER size atr).outcome =
        Outcome.WIN) := by
  refine ⟨?_, ?_, fun dir =>
    ⟨(trade_record_loss_fields symbol date_str dir e s tg size atr).1,
     (trade_record_loss_fields symbol date_str dir e s tg size atr).2,
     (trade_record_win_fields symbol date_str dir e s tg size atr).1,
     (trade_record_win_fields symbol date_str dir e s tg size atr).2⟩⟩
  · by_cases h1 : bar.l ≤ s
    · rw [if_pos h1, scanDay, if_neg breaker_not_tripped, if_neg (by simp)]
      simp only [entry_step_some]
      rw [if_pos ⟨by simp, h1⟩]
    · rw [if_neg h1]
      by_cases h2 : tg ≤ bar.h
      · rw [if_pos h2, scanDay, if_neg breaker_not_tripped, if_neg (by simp)]
        simp only [entry_step_some]
        rw [if_neg (fun hc => h1 hc.2), if_pos ⟨by simp, h2⟩]
      · rw [if_neg h2, scanDay, if_neg breaker_not_tripped, if_neg (by simp)]
        simp only [entry_step_some]
        rw [if_neg (fun hc => h1 hc.2), if_neg (fun hc => h2 hc.2),
          if_neg (by simp), if_neg (by simp)]
  · by_cases h1 : s ≤ bar.h
    · rw [if_pos h1, scanDay, if_neg breaker_not_tripped, if_neg (by simp)]
      simp only [entry_step_some]
      rw [if_neg (by simp), if_neg (by simp), if_pos ⟨by simp, h1⟩]
    · rw [if_neg h1]
      by_cases h2 : bar.l ≤ tg
      · rw [if_pos h2, scanDay, if_neg breaker_not_tripped, if_neg (by simp)]
        simp only [entry_step_some]
        rw [if_neg (by simp), if_neg (by simp), if_neg (fun hc => h1 hc.2),
          if_pos ⟨by simp, h2⟩]
      · rw [if_neg h2, scanDay, if_neg breaker_not_tripped, if_neg (by simp)]
        simp only [entry_step_some]
        rw [if_neg (by simp), if_neg (by simp), if_neg (fun hc => h1 hc.2),
          if_neg (fun hc => h2 hc.2)]

/-! ## C10 -/

theorem entry_step_long (oh ol rs e s tg : ℚ) (bar : Bar) (before : List Bar)
    (hh : oh < bar.h) (hvol : volume_confirmation bar (lastN 5 before) = true) :
    entry_step oh ol rs ⟨none, e, s, tg⟩ bar before =
      ⟨some Direction.LONG, oh, ol, oh + rs * RISK_MULTIPLIER⟩ := by
  unfold entry_step
  rw [if_pos ⟨rfl, hh⟩, if_pos hvol]

/-- C10: a bar reached while FLAT (entries still allowed) whose high
exceeds the ORB high and whose low is also below the ORB low, with passing
volume confirmation, opens a LONG position — the long branch consumes the
bar, so the short branch is never examined — and, because the entry bar is
itself evaluated for exits and its low is of course at or below the stop
(the ORB low), the scan returns a LONG trade with rMultiple −1 and outcome
LOSS on that same bar. -/
theorem C10_long_branch_first (symbol date_str : String) (size : ℚ) (atr : Option ℚ)
    (oh ol rs e s tg : ℚ) (before rest : List Bar) (bar : Bar)
    (hlate : late_entry_filter bar = true)
    (hh : oh < bar.h) (hl : bar.l < ol)
    (hvol : volume_confirmation bar (lastN 5 before) = true) :
    scanDay symbol date_str size atr oh ol rs 0 ⟨none, e, s, tg⟩ before (bar :: rest) =
      some (trade_record symbol date_str Direction.LONG oh ol
        (oh + rs * RISK_MULTIPLIER) (-1) size atr) ∧
    (trade_record symbol date_str Direction.LONG oh ol (oh + rs * RISK_MULTIPLIER)
        (-1) size atr).direction = Direction.LONG ∧
    (trade_record symbol date_str Direction.LONG oh ol (oh + rs * RISK_MULTIPLIER)
        (-1) size atr).r_mult = -1 ∧
    (trade_record symbol date_str Direction.LONG oh ol (oh + rs * RISK_MULTIPLIER)
        (-1) size atr).outcome = Outcome.LOSS := by
  refine ⟨?_, rfl,
    (trade_record_loss_fields symbol date_str Direction.LONG oh ol _ size atr).1,
    (trade_record_loss_fields symbol date_str Direction.LONG oh ol _ size atr).2⟩
  rw [scanDay, if_neg breaker_not_tripped, if_neg (by simp [hlate])]
  simp only [entry_step_long oh ol rs e s tg bar before hh hvol]
  rw [if_pos ⟨by simp, hl.le⟩]

/-- C10 witness: the concrete crossing bar `wBreakBar` over the ORB window
[99, 101] with the six 1000-volume ORB bars as context. -/
theorem C10_long_branch_first_witness :
    late_entry_filter wBreakBar = true ∧ (101 : ℚ) < wBreakBar.h ∧
    wBreakBar.l < (99 : ℚ) ∧
    volume_confirmation wBreakBar (lastN 5 wOrbBars) = true ∧
    (scanDay "TEST" "2024-01-03" 100 none 101 99 2 0 ⟨none, 0, 0, 0⟩ wOrbBars
        [wBreakBar] =
      some (trade_record "TEST" "2024-01-03" Direction.LONG 101 99
        (101 + 2 * RISK_MULTIPLIER) (-1) 100 none) ∧
    (trade_record "TEST" "2024-01-03" Direction.LONG 101 99 (101 + 2 * RISK_MULTIPLIER)
        (-1) 100 none).direction = Direction.LONG ∧
    (trade_record "TEST" "2024-01-03" Direction.LONG 101 99 (101 + 2 * RISK_MULTIPLIER)
        (-1) 100 none).r_mult = -1 ∧
    (trade_record "TEST" "2024-01-03" Direction.LONG 101 99 (101 + 2 * RISK_MULTIPLIER)
        (-1) 100 none).outcome = Outcome.LOSS) :=
  ⟨of_decide_eq_true (by with_unfolding_all rfl),
   of_decide_eq_true (by with_unfolding_all rfl),
   of_decide_eq_true (by with_unfolding_all rfl),
   of_decide_eq_true (by with_unfolding_all rfl),
   C10_long_branch_first "TEST" "2024-01-03" 100 none 101 99 2 0 0 0 wOrbBars []
     wBreakBar
     (of_decide_eq_true (by with_unfolding_all rfl))
     (of_decide_eq_true (by with_unfolding_all rfl))
     (of_decide_eq_true (by with_unfolding_all rfl))
     (of_decide_eq_true (by with_unfolding_all rfl))⟩

/-! ## C9 -/

theorem scanDay_zero_eq_NB (symbol date_str : String) (size : ℚ) (atr : Option ℚ)
    (oh ol rs : ℚ) :
    ∀ (l : List Bar) (st : PosState) (before : List Bar),
      scanDay symbol date_str size atr oh ol rs 0 st before l =
      scanDayNB symbol date_str size atr oh ol rs st before l
  | [], st, before => by
    rw [scanDay, scanDayNB]
  | bar :: rest, st, before => by
    rw [scanDay, scanDayNB, if_neg breaker_not_tripped]
    by_cases hp : st.position = none ∧ late_entry_filter bar = false
    · rw [if_pos hp, if_pos hp]
    · rw [if_neg hp, if_neg hp]
      simp only []
      split_ifs <;>
        first
          | rfl
          | exact scanDay_zero_eq_NB symbol date_str size atr oh ol rs rest _ _

/-- C9: with the default −3R circuit-breaker floor, the daily-loss check of
`backtest_symbol` never fires on any input: at every bar where the check
runs, the day's realized R is still the initial 0 (the first recorded trade
immediately ends that day's scan), so deleting the check — the
`backtest_symbolNB` variant — yields exactly the same trades for every
input bar series. -/
theorem C9_circuit_breaker_never_fires (symbol : String) (b5 bD : List Bar) :
    backtest_symbol symbol b5 bD = backtest_symbolNB symbol b5 bD := by
  unfold backtest_symbol backtest_symbolNB
  have hstep : dayStep symbol b5 bD = dayStepNB symbol b5 bD := by
    funext st d
    unfold dayStep dayStepNB
    simp only [scanDay_zero_eq_NB]
  rw [hstep]

/-! ## C6 -/

theorem insertAfterLe_pairwise (le : α → α → Bool)
    (htrans : ∀ a b c, le a b = true → le b c = true → le a c = true)
    (htotal : ∀ a b, le a b = true ∨ le b a = true) (x : α) :
    ∀ l, l.Pairwise (fun a b => le a b = true) →
      (insertAfterLe le x l).Pairwise (fun a b => le a b = true)
  | [], _ => by simp [insertAfterLe]
  | y :: ys, hp => by
    rw [insertAfterLe]
    obtain ⟨hy, hys⟩ := List.pairwise_cons.mp hp
    split_ifs with h
    · refine List.pairwise_cons.mpr ⟨?_, insertAfterLe_pairwise le htrans htotal x ys hys⟩
      intro b hb
      have hmem := (insertAfterLe_perm le x ys).mem_iff.mp hb
      rcases List.mem_cons.mp hmem with rfl | hbys
      · exact h
      · exact hy b hbys
    · have hxy : le x y = true := (htotal x y).resolve_right h
      refine List.pairwise_cons.mpr ⟨?_, hp⟩
      intro b hb
      rcases List.mem_cons.mp hb with rfl | hbys
      · exact hxy
      · exact htrans x y b hxy (hy b hbys)

theorem sortStable_pairwise (le : α → α → Bool)
    (htrans : ∀ a b c, le a b = true → le b c = true → le a c = true)
    (htotal : ∀ a b, le a b = true ∨ le b a = true) (l : List α) :
    (sortStable le l).Pairwise (fun a b => le a b = true) := by
  unfold sortStable
  suffices hgen : ∀ (l acc : List α), acc.Pairwise (fun a b => le a b = true) →
      (l.foldl (fun acc x => insertAfterLe le x acc) acc).Pairwise
        (fun a b => le a b = true) from hgen l [] List.Pairwise.nil
  intro l
  induction l with
  | nil => intro acc hacc; exact hacc
  | cons x xs ih =>
    intro acc hacc
    rw [List.foldl_cons]
    exact ih _ (insertAfterLe_pairwise le htrans htotal x acc hacc)

theorem charsLe_total : ∀ a b : List Char, charsLe a b = true ∨ charsLe b a = true
  | [], _ => Or.inl rfl
  | _ :: _, [] => Or.inr rfl
  | a :: as, b :: bs => by
    rw [charsLe, charsLe]
    rcases lt_trichotomy a b with h | h | h
    · left
      rw [if_pos h]
    · subst h
      simp only [lt_irrefl, if_false]
      exact charsLe_total as bs
    · right
      rw [if_pos h]

theorem charsLe_trans : ∀ a b c : List Char,
    charsLe a b = true → charsLe b c = true → charsLe a c = true
  | [], _, _ => fun _ _ => rfl
  | a :: as, [], _ => fun h1 _ => by
    rw [charsLe] at h1
    exact absurd h1 (by simp)
  | a :: as, b :: bs, [] => fun _ h2 => by
    rw [charsLe] at h2
    exact absurd h2 (by simp)
  | a :: as, b :: bs, c :: cs => fun h1 h2 => by
    rw [charsLe] at h1 h2 ⊢
    by_cases hab : a < b
    · by_cases hbc : b < c
      · rw [if_pos (lt_trans hab hbc)]
      · by_cases hcb : c < b
        · rw [if_neg hbc, if_pos hcb] at h2
          exact absurd h2 (by simp)
        · rw [if_pos (lt_of_lt_of_le hab (le_of_not_lt hcb))]
    · by_cases hba : b < a
      · rw [if_neg hab, if_pos hba] at h1
        exact absurd h1 (by simp)
      · have hab2 : a = b := le_antisymm (le_of_not_lt hba) (le_of_not_lt hab)
        subst hab2
        rw [if_neg hab, if_neg hba] at h1
        by_cases hac : a < c
        · rw [if_pos hac]
        · by_cases hca : c < a
          · rw [if_neg hac, if_pos hca] at h2
            exact absurd h2 (by simp)
          · rw [if_neg hac, if_neg hca] at h2 ⊢
            exact charsLe_trans as bs cs h1 h2

theorem tradeDateLe_total (a b : Trade) :
    strLe a.date b.date = true ∨ strLe b.date a.date = true :=
  charsLe_total a.date.data b.date.data

theorem tradeDateLe_trans (a b c : Trade) :
    strLe a.date b.date = true → strLe b.date c.date = true →
    strLe a.date c.date = true :=
  charsLe_trans a.date.data b.date.data c.date.data

/-- C6: `walk_forward_split` stably sorts the trades by date (the embedded
`sortStable` is the stable sort), splits at `⌊n · INSAMPLE_RATIO⌋`, the two
parts' lengths sum to the input length, and both parts are chronologically
ordered. -/
theorem C6_walk_forward_split (trades : List Trade) :
    (walk_forward_split trades).1.length + (walk_forward_split trades).2.length =
      trades.length ∧
    (walk_forward_split trades).1 =
      (sortStable (fun a b => strLe a.date b.date) trades).take
        (⌊(trades.length : ℚ) * INSAMPLE_RATIO⌋).toNat ∧
    (walk_forward_split trades).2 =
      (sortStable (fun a b => strLe a.date b.date) trades).drop
        (⌊(trades.length : ℚ) * INSAMPLE_RATIO⌋).toNat ∧
    (walk_forward_split trades).1.Pairwise (fun a b => strLe a.date b.date = true) ∧
    (walk_forward_split trades).2.Pairwise (fun a b => strLe a.date b.date = true) := by
  have hsorted : (sortStable (fun a b => strLe a.date b.date) trades).Pairwise
      (fun a b => strLe a.date b.date = true) :=
    sortStable_pairwise _ (fun a b c => tradeDateLe_trans a b c)
      (fun a b => tradeDateLe_total a b) trades
  have hlen : (sortStable (fun a b => strLe a.date b.date) trades).length =
      trades.length := (sortStable_perm _ _).length_eq
  unfold walk_forward_split
  by_cases h : trades = []
  · subst h
    refine ⟨rfl, ?_, ?_, List.Pairwise.nil, List.Pairwise.nil⟩ <;>
      simp [sortStable]
  · rw [if_neg h]
    dsimp only
    rw [hlen]
    refine ⟨?_, rfl, rfl, ?_, ?_⟩
    · rw [List.length_take, List.length_drop, hlen]
      omega
    · exact List.Pairwise.sublist (List.take_sublist _ _) hsorted
    · exact List.Pairwise.sublist (List.drop_sublist _ _) hsorted

/-! ## C7: grouping characterization -/

theorem dedupKeys_mem : ∀ (l : List String) (d : String), d ∈ dedupKeys l ↔ d ∈ l
  | [], d => by simp [dedupKeys]
  | x :: xs, d => by
    rw [dedupKeys]
    by_cases hdx : d = x
    · subst hdx
      simp
    · simp [List.mem_filter, hdx, dedupKeys_mem xs d]

theorem dedupKeys_append_singleton : ∀ (l : List String) (d : String),
    dedupKeys (l ++ [d]) = if d ∈ l then dedupKeys l else dedupKeys l ++ [d]
  | [], d => by simp [dedupKeys]
  | x :: xs, d => by
    rw [List.cons_append, dedupKeys, dedupKeys_append_singleton xs d, dedupKeys]
    by_cases hd : d ∈ xs
    · rw [if_pos hd, if_pos (List.mem_cons_of_mem x hd)]
    · rw [if_neg hd]
      by_cases hdx : d = x
      · subst hdx
        rw [if_pos (List.mem_cons_self d xs), List.filter_append]
        simp
      · rw [if_neg (by simp [hdx, hd]), List.filter_append]
        simp [hdx]

theorem filter_date_nil (p : List Trade) (d : String)
    (h : d ∉ p.map fun t => t.date) : p.filter (fun t => t.date = d) = [] := by
  rw [List.filter_eq_nil_iff]
  intro a ha
  simp only [decide_eq_true_eq]
  intro had
  exact h (List.mem_map.mpr ⟨a, ha, had⟩)

theorem insertByDate_map (t : Trade) :
    ∀ (ks : List String) (f : String → List Trade), ks.Nodup →
    insertByDate (ks.map fun d => (d, f d)) t =
      if t.date ∈ ks then
        ks.map (fun d => (d, if d = t.date then f d ++ [t] else f d))
      else (ks.map fun d => (d, f d)) ++ [(t.date, [t])]
  | [], f, _ => by simp [insertByDate]
  | k :: ks, f, hnd => by
    obtain ⟨hk_not, hks⟩ := List.nodup_cons.mp hnd
    rw [List.map_cons, insertByDate]
    by_cases hk : k = t.date
    · rw [if_pos hk, if_pos (by rw [← hk]; exact List.mem_cons_self k ks),
        List.map_cons, if_pos hk]
      congr 1
      apply List.map_congr_left
      intro d hd
      rw [if_neg (fun hdt => hk_not (by rw [hk, ← hdt]; exact hd))]
    · rw [if_neg hk, insertByDate_map t ks f hks]
      by_cases hmem : t.date ∈ ks
      · rw [if_pos hmem, if_pos (List.mem_cons_of_mem k hmem), List.map_cons,
          if_neg hk]
      · rw [if_neg hmem,
          if_neg (fun hc => (List.mem_cons.mp hc).elim (fun h1 => hk h1.symm) hmem),
          List.cons_append]

theorem insertByDate_groupsOf (p : List Trade) (t : Trade) :
    insertByDate (groupsOf p) t = groupsOf (p ++ [t]) := by
  unfold groupsOf
  rw [insertByDate_map t _ _ (dedupKeys_nodup _), List.map_append, List.map_singleton,
    dedupKeys_append_singleton]
  by_cases hmem : t.date ∈ p.map fun t => t.date
  · rw [if_pos ((dedupKeys_mem _ _).mpr hmem), if_pos hmem]
    apply List.map_congr_left
    intro d hd
    rw [List.filter_append]
    by_cases hdt : d = t.date
    · rw [if_pos hdt]
      have : (List.filter (fun x => x.date = d) [t]) = [t] := by
        simp [hdt.symm]
      rw [this]
    · rw [if_neg hdt]
      have hne : ¬ (t.date = d) := fun h => hdt h.symm
      have : (List.filter (fun x => x.date = d) [t]) = [] := by simp [hne]
      rw [this, List.append_nil]
  · rw [if_neg (fun hc => hmem ((dedupKeys_mem _ _).mp hc)), if_neg hmem,
      List.map_append]
    congr 1
    · apply List.map_congr_left
      intro d hd
      have hd2 : d ∈ p.map fun t => t.date := (dedupKeys_mem _ _).mp hd
      have hne : ¬ (t.date = d) := fun h => hmem (h ▸ hd2)
      rw [List.filter_append]
      have : (List.filter (fun x => x.date = d) [t]) = [] := by simp [hne]
      rw [this, List.append_nil]
    · rw [List.map_singleton, List.filter_append, filter_date_nil p t.date hmem,
        List.nil_append]
      simp

theorem foldl_insertByDate_groupsOf : ∀ (l p : List Trade),
    l.foldl insertByDate (groupsOf p) = groupsOf (p ++ l)
  | [], p => by simp
  | t :: l, p => by
    rw [List.foldl_cons, insertByDate_groupsOf, foldl_insertByDate_groupsOf l (p ++ [t]),
      List.append_assoc, List.singleton_append]

theorem trades_by_date_eq (l : List Trade) : trades_by_date l = groupsOf l := by
  unfold trades_by_date
  have h0 : ([] : List (String × List Trade)) = groupsOf [] := rfl
  rw [h0, foldl_insertByDate_groupsOf l [], List.nil_append]

theorem mem_foldl_append (f : (String × List Trade) → List Trade) :
    ∀ (gs : List (String × List Trade)) (init : List Trade) (t : Trade),
      t ∈ gs.foldl (fun acc g => acc ++ f g) init ↔ t ∈ init ∨ ∃ g ∈ gs, t ∈ f g
  | [], init, t => by simp
  | g :: gs, init, t => by
    rw [List.foldl_cons, mem_foldl_append f gs _ t, List.mem_append]
    constructor
    · rintro ((h | h) | ⟨g2, hg2, hf⟩)
      · exact Or.inl h
      · exact Or.inr ⟨g, List.mem_cons_self _ _, h⟩
      · exact Or.inr ⟨g2, List.mem_cons_of_mem _ hg2, hf⟩
    · rintro (h | ⟨g2, hg2, hf⟩)
      · exact Or.inl (Or.inl h)
      · rcases List.mem_cons.mp hg2 with rfl | h2
        · exact Or.inl (Or.inr hf)
        · exact Or.inr ⟨g2, h2, hf⟩

theorem key_unique {l : List Trade}
    (H : l.Pairwise fun a b => ¬(a.symbol = b.symbol ∧ a.date = b.date)) :
    ∀ a ∈ l, ∀ b ∈ l, a.symbol = b.symbol → a.date = b.date → a = b := by
  intro a ha b hb hs hd
  by_contra hne
  have hsym : Symmetric (fun a b : Trade => ¬(a.symbol = b.symbol ∧ a.date = b.date)) :=
    fun x y h hc => h ⟨hc.1.symm, hc.2.symm⟩
  exact (H.forall hsym ha hb hne) ⟨hs, hd⟩

theorem droppedByPair_iff (all_trades : List Trade) (t : Trade) :
    droppedByPair all_trades t ↔ ∃ t2 ∈ all_trades, t2.date = t.date ∧
      ((t.symbol = "QQQ" ∧ t2.symbol = "SPY" ∧ |t.r_mult| ≤ |t2.r_mult|) ∨
       (t.symbol = "SPY" ∧ t2.symbol = "QQQ" ∧ |t.r_mult| < |t2.r_mult|)) := by
  unfold droppedByPair CORRELATION_PAIRS
  simp

theorem mem_skip_iff (all_trades : List Trade)
    (huniq : ∀ a ∈ all_trades, ∀ b ∈ all_trades,
      a.symbol = b.symbol → a.date = b.date → a = b)
    (t : Trade) (ht : t ∈ all_trades) :
    (t.date, t.symbol) ∈
      skip_for_day t.date (all_trades.filter fun x => x.date = t.date) ↔
    droppedByPair all_trades t := by
  have hmem_g : ∀ x : Trade,
      x ∈ (all_trades.filter fun x => x.date = t.date) ↔
        x ∈ all_trades ∧ x.date = t.date := by
    intro x
    rw [List.mem_filter]
    simp
  rw [droppedByPair_iff]
  simp only [skip_for_day, CORRELATION_PAIRS, List.foldl_cons, List.foldl_nil]
  rcases h1 : (all_trades.filter fun x => x.date = t.date).find?
      (fun x => x.symbol = "SPY") with _ | t1
  · simp only [h1, List.not_mem_nil, false_iff]
    rintro ⟨t2, ht2, hd2, hcase⟩
    have hex : ∃ y ∈ all_trades.filter fun x => x.date = t.date, y.symbol = "SPY" := by
      rcases hcase with ⟨_, hs, _⟩ | ⟨hs, _, _⟩
      · exact ⟨t2, (hmem_g t2).mpr ⟨ht2, hd2⟩, hs⟩
      · exact ⟨t, (hmem_g t).mpr ⟨ht, rfl⟩, hs⟩
    obtain ⟨y, hy, hys⟩ := hex
    have hnone := List.find?_eq_none.mp h1 y hy
    simp [hys] at hnone
  · rcases h2 : (all_trades.filter fun x => x.date = t.date).find?
        (fun x => x.symbol = "QQQ") with _ | t2
    · simp only [h1, h2, List.not_mem_nil, false_iff]
      rintro ⟨t2', ht2', hd2', hcase⟩
      have hex : ∃ y ∈ all_trades.filter fun x => x.date = t.date,
          y.symbol = "QQQ" := by
        rcases hcase with ⟨hq, _, _⟩ | ⟨_, hq, _⟩
        · exact ⟨t, (hmem_g t).mpr ⟨ht, rfl⟩, hq⟩
        · exact ⟨t2', (hmem_g t2').mpr ⟨ht2', hd2'⟩, hq⟩
      obtain ⟨y, hy, hys⟩ := hex
      have hnone := List.find?_eq_none.mp h2 y hy
      simp [hys] at hnone
    · simp only [h1, h2]
      have ht1g := List.mem_of_find?_eq_some h1
      have ht2g := List.mem_of_find?_eq_some h2
      obtain ⟨ht1a, ht1d⟩ := (hmem_g t1).mp ht1g
      obtain ⟨ht2a, ht2d⟩ := (hmem_g t2).mp ht2g
      have ht1s : t1.symbol = "SPY" := by
        have := List.find?_some h1
        simpa using this
      have ht2s : t2.symbol = "QQQ" := by
        have := List.find?_some h2
        simpa using this
      rw [List.mem_singleton]
      constructor
      · intro hpair
        have hsym : t.symbol = (if |t2.r_mult| ≤ |t1.r_mult| then "QQQ" else "SPY") :=
          (Prod.ext_iff.mp hpair).2
        by_cases hle : |t2.r_mult| ≤ |t1.r_mult|
        · rw [if_pos hle] at hsym
          have hteq : t = t2 := huniq t ht t2 ht2a (by rw [hsym, ht2s]) ht2d.symm
          refine ⟨t1, ht1a, ht1d, Or.inl ⟨hsym, ht1s, ?_⟩⟩
          rw [hteq]
          exact hle
        · rw [if_neg hle] at hsym
          have hteq : t = t1 := huniq t ht t1 ht1a (by rw [hsym, ht1s]) ht1d.symm
          refine ⟨t2, ht2a, ht2d, Or.inr ⟨hsym, ht2s, ?_⟩⟩
          rw [hteq]
          exact lt_of_not_le hle
      · rintro ⟨t2', ht2', hd2', hcase⟩
        rcases hcase with ⟨hq, hs, hle⟩ | ⟨hs, hq, hlt⟩
        · have ht2eq : t2 = t := huniq t2 ht2a t ht (by rw [ht2s, hq]) ht2d
          have ht1eq : t1 = t2' :=
            huniq t1 ht1a t2' ht2' (by rw [ht1s, hs]) (ht1d.trans hd2'.symm)
          have hle2 : |t2.r_mult| ≤ |t1.r_mult| := by
            rw [ht2eq, ht1eq]
            exact hle
          rw [if_pos hle2, hq]
        · have ht1eq : t1 = t := huniq t1 ht1a t ht (by rw [ht1s, hs]) ht1d
          have ht2eq : t2 = t2' :=
            huniq t2 ht2a t2' ht2' (by rw [ht2s, hq]) (ht2d.trans hd2'.symm)
          have hlt2 : ¬ (|t2.r_mult| ≤ |t1.r_mult|) := by
            rw [ht1eq, ht2eq]
            exact not_le.mpr hlt
          rw [if_neg hlt2, hs]

/-- C7: on a trade list with at most one trade per (symbol, date) — the
invariant the backtest guarantees — `apply_correlation_filter` keeps a
trade iff it is not dropped by the declared-pair rule: for each date where
both members of a declared correlated pair traded, exactly the trade with
the smaller absolute rMultiple is dropped, and on an exact tie the trade of
the second-listed member; every other trade is kept. -/
theorem C7_correlation_filter (all_trades : List Trade)
    (H : all_trades.Pairwise fun a b => ¬(a.symbol = b.symbol ∧ a.date = b.date))
    (t : Trade) :
    t ∈ apply_correlation_filter all_trades ↔
      t ∈ all_trades ∧ ¬ droppedByPair all_trades t := by
  have huniq := key_unique H
  unfold apply_correlation_filter
  rw [trades_by_date_eq, mem_foldl_append]
  simp only [List.not_mem_nil, false_or]
  constructor
  · rintro ⟨g, hg, htg⟩
    unfold groupsOf at hg
    obtain ⟨d, _, rfl⟩ := List.mem_map.mp hg
    rw [List.mem_filter] at htg
    obtain ⟨htf, hkeep⟩ := htg
    rw [List.mem_filter] at htf
    obtain ⟨htl, htd⟩ := htf
    have htd2 : t.date = d := of_decide_eq_true htd
    subst htd2
    refine ⟨htl, fun hdrop => ?_⟩
    exact (of_decide_eq_true hkeep) ((mem_skip_iff all_trades huniq t htl).mpr hdrop)
  · rintro ⟨htl, hnd⟩
    refine ⟨(t.date, all_trades.filter fun x => x.date = t.date), ?_, ?_⟩
    · unfold groupsOf
      exact List.mem_map.mpr ⟨t.date,
        (dedupKeys_mem _ _).mpr (List.mem_map.mpr ⟨t, htl, rfl⟩), rfl⟩
    · rw [List.mem_filter]
      refine ⟨List.mem_filter.mpr ⟨htl, by simp⟩, ?_⟩
      rw [decide_eq_true_eq]
      intro hin
      exact hnd ((mem_skip_iff all_trades huniq t htl).mp hin)

/-- C7 witness: with a SPY trade of |r| = 2 and a QQQ trade of |r| = 1 on
the same date, the theorem applies; the QQQ trade is the dropped one. -/
theorem C7_correlation_filter_witness :
    ([wTradeSPY, wTradeQQQ].Pairwise
      fun a b => ¬(a.symbol = b.symbol ∧ a.date = b.date)) ∧
    (wTradeQQQ ∈ apply_correlation_filter [wTradeSPY, wTradeQQQ] ↔
      wTradeQQQ ∈ [wTradeSPY, wTradeQQQ] ∧
        ¬ droppedByPair [wTradeSPY, wTradeQQQ] wTradeQQQ) ∧
    wTradeQQQ ∉ apply_correlation_filter [wTradeSPY, wTradeQQQ] ∧
    droppedByPair [wTradeSPY, wTradeQQQ] wTradeQQQ ∧
    wTradeSPY ∈ apply_correlation_filter [wTradeSPY, wTradeQQQ] :=
  ⟨by decide, C7_correlation_filter [wTradeSPY, wTradeQQQ] (by decide) wTradeQQQ,
   of_decide_eq_true (by with_unfolding_all rfl),
   of_decide_eq_true (by with_unfolding_all rfl),
   of_decide_eq_true (by with_unfolding_all rfl)⟩

end Orb
